import Mathlib

/-!
Verification of the Wave GPU hash-aggregation engine
(`velox/experimental/wave/exec/Instruction.cpp`).

The file shallowly embeds the data model and the host-side routines of the
aggregation engine: error counting over per-block row statuses, the
`resupplyHashTable` growth/rehash orchestration, the partition allocator
restocking, the capacity reclamp `setSizesToSafe`, the continuation decision
`AbstractAggregation::canAdvance`, the result-row counting and drain cursor
(`countResultRows` / `makeResultRows`), and the grouped read drain guard
(`AbstractReadAggregation::canAdvance`).

Machine integers are modelled as `Nat`/`Int` with explicit `% 2^32` where the
source relies on unsigned 32-bit wraparound.  Functions declared in `Wave.h`
(absent from the sources) are modelled from the specification and are marked
as such in their doc comments.
-/

namespace Wave

/-! ### Bit utilities (velox `bits::` helpers used by Instruction.cpp) -/

/-- Modelled from the spec: `bits::nextPowerOfTwo` — fuel-driven doubling
loop; `nextPow2Go n fuel p` doubles `p` until it reaches at least `n`. -/
def nextPow2Go (n : Nat) : Nat → Nat → Nat
  | 0, p => p
  | fuel + 1, p => if n ≤ p then p else nextPow2Go n fuel (2 * p)

/-- Modelled from the spec: `bits::nextPowerOfTwo` returns the next power of
two greater than or equal to its argument (and `0` for `0`). -/
def nextPowerOfTwo (n : Nat) : Nat :=
  if n = 0 then 0 else nextPow2Go n n 1

/-- Modelled from the spec: `bits::roundUp x y` rounds `x` up to the next
multiple of `y`. -/
def roundUp (x y : Nat) : Nat := (x + y - 1) / y * y

theorem nextPow2Go_ge (n : Nat) (fuel p : Nat) (hp : 1 ≤ p)
    (hfuel : n ≤ 2 ^ fuel * p) : n ≤ nextPow2Go n fuel p := by
  induction fuel generalizing p with
  | zero => simpa using hfuel
  | succ k ih =>
    simp only [nextPow2Go]
    split
    · assumption
    · exact ih (2 * p) (by omega) (by rw [pow_succ] at hfuel; linarith)

theorem nextPow2Go_pow (n : Nat) (fuel p : Nat) (k : Nat) (hp : p = 2 ^ k) :
    ∃ m, nextPow2Go n fuel p = 2 ^ m := by
  induction fuel generalizing p k with
  | zero => exact ⟨k, hp⟩
  | succ f ih =>
    simp only [nextPow2Go]
    split
    · exact ⟨k, hp⟩
    · exact ih (2 * p) (k + 1) (by rw [hp, pow_succ]; ring)

/-- `nextPowerOfTwo n` is at least `n`. -/
theorem nextPowerOfTwo_ge (n : Nat) : n ≤ nextPowerOfTwo n := by
  unfold nextPowerOfTwo
  split
  · omega
  · exact nextPow2Go_ge n n 1 le_rfl (by
      have := Nat.lt_two_pow n
      omega)

/-- `nextPowerOfTwo n` is zero or a power of two. -/
theorem nextPowerOfTwo_pow (n : Nat) :
    nextPowerOfTwo n = 0 ∨ ∃ m, nextPowerOfTwo n = 2 ^ m := by
  unfold nextPowerOfTwo
  split
  · exact Or.inl rfl
  · exact Or.inr (nextPow2Go_pow n n 1 0 (by norm_num))

theorem nextPow2Go_minimal (n : Nat) (fuel : Nat) (j k : Nat) (hjk : j ≤ k)
    (h : n ≤ 2 ^ k) : nextPow2Go n fuel (2 ^ j) ≤ 2 ^ k := by
  induction fuel generalizing j with
  | zero => exact Nat.pow_le_pow_right (by norm_num) hjk
  | succ f ih =>
    simp only [nextPow2Go]
    split
    · exact Nat.pow_le_pow_right (by norm_num) hjk
    · rename_i hnp
      have hjlt : j < k := by
        by_contra hc
        have : j = k := by omega
        subst this
        omega
      have h2 : 2 * 2 ^ j = 2 ^ (j + 1) := by rw [pow_succ]; ring
      rw [h2]
      exact ih (j + 1) (by omega)

/-- `nextPowerOfTwo n` is minimal among powers of two that are `≥ n`. -/
theorem nextPowerOfTwo_minimal (n k : Nat) (h : n ≤ 2 ^ k) :
    nextPowerOfTwo n ≤ 2 ^ k := by
  unfold nextPowerOfTwo
  split
  · omega
  · have := nextPow2Go_minimal n n 0 k (Nat.zero_le k) h
    simpa using this

/-! ### Error codes and per-block statuses -/

/-- Per-row error codes recorded by kernels (`ErrorCode` in the wave
runtime); only the ones relevant here are distinguished. -/
inductive ErrorCode where
  | kOk
  | kInsufficientMemory
  | kOther
  deriving DecidableEq, Repr

/-- `BlockStatus`: one fixed-size row block's status — a row count and the
per-row error codes (`status[i].errors[j]`). -/
structure BlockStatus where
  numRows : Nat
  errors : Nat → ErrorCode

/-- `countErrors` (Instruction.cpp, lines 51–59): counts, over the first
`numBlocks` blocks, the rows whose error code equals `error`. -/
def countErrors (status : List BlockStatus) (numBlocks : Nat) (error : ErrorCode) : Nat :=
  ((status.take numBlocks).map
    (fun b => (List.range b.numRows).countP (fun j => b.errors j = error))).sum

/-- Kernel thread-block size (`kBlockSize` in the wave runtime). -/
def kBlockSize : Nat := 256

/-! ### Allocation ranges and partition allocators -/

/-- Modelled from the spec: `AllocationRange` (declared in `Wave.h`, absent
from the sources) — a bump-allocated device memory region holding fixed-size
rows.  `rowLimit` is the soft byte cap for fixed rows, `rowOffset` the current
fill (concurrent lock-free writers may race it past the cap), `firstRowOffset`
the start of row storage (a leading bitmap before it marks logically deleted
rows, modelled by the `deleted` predicate on bit positions), `stringOffset`
the top of the downward-growing string heap.  A default-constructed (or
moved-from) range has capacity `0`. -/
structure AllocationRange where
  base : Nat := 0
  capacity : Nat := 0
  rowLimit : Nat := 0
  firstRowOffset : Nat := 0
  rowOffset : Nat := 0
  stringOffset : Nat := 0
  fixedFull : Bool := false
  deleted : Nat → Bool := fun _ => false

/-- `AllocationRange::empty()`: a range is empty when it has no capacity. -/
def AllocationRange.isEmpty (r : AllocationRange) : Bool := r.capacity == 0

/-- Modelled from the spec: a range's available fixed-row space — the bytes
left under the soft cap. -/
def AllocationRange.availFixed (r : AllocationRange) : Nat := r.rowLimit - r.rowOffset

/-- Modelled from the spec: `HashPartitionAllocator` (declared in `Wave.h`,
absent from the sources) — per-partition row storage, double-buffered over
two `AllocationRange`s (`ranges[0]` current, `ranges[1]` secondary). -/
structure HashPartitionAllocator where
  ranges0 : AllocationRange := {}
  ranges1 : AllocationRange := {}
  rowSize : Nat := 0

/-- Modelled from the spec: `HashPartitionAllocator::availableFixed()` — the
total available fixed-row capacity over both ranges, in bytes. -/
def availableFixed (a : HashPartitionAllocator) : Nat :=
  a.ranges0.availFixed + a.ranges1.availFixed

/-- Modelled from the spec: `HashPartitionAllocator::clearOverflows()` —
resets fill bookkeeping that concurrent writers raced past the soft cap:
each range's fill is clamped back to its limit. -/
def clearOverflows (a : HashPartitionAllocator) : HashPartitionAllocator :=
  { a with
    ranges0 := { a.ranges0 with rowOffset := min a.ranges0.rowOffset a.ranges0.rowLimit }
    ranges1 := { a.ranges1 with rowOffset := min a.ranges1.rowOffset a.ranges1.rowLimit } }

/-- Modelled from the spec: `HashPartitionAllocator::raiseRowLimits(size)` —
satisfies up to `size` bytes of a growth request by raising the soft caps of
the two ranges into their already-reserved capacity, returning the number of
bytes so satisfied together with the updated allocator. -/
def raiseRowLimits (size : Nat) (a : HashPartitionAllocator) :
    Nat × HashPartitionAllocator :=
  let d0 := min size (a.ranges0.capacity - a.ranges0.rowLimit)
  let d1 := min (size - d0) (a.ranges1.capacity - a.ranges1.rowLimit)
  (d0 + d1,
   { a with
     ranges0 := { a.ranges0 with rowLimit := a.ranges0.rowLimit + d0 }
     ranges1 := { a.ranges1 with rowLimit := a.ranges1.rowLimit + d1 } })

/-- Modelled from the spec: `HashPartitionAllocator::trimRows(n)` — caps the
allocator's available fixed capacity to at most `n` bytes by lowering the
soft caps (the current range first, then the secondary). -/
def trimRows (n : Nat) (a : HashPartitionAllocator) : HashPartitionAllocator :=
  let a0 := min a.ranges0.availFixed n
  { a with
    ranges0 := { a.ranges0 with rowLimit := a.ranges0.rowOffset + a0 }
    ranges1 := { a.ranges1 with
                 rowLimit := a.ranges1.rowOffset + min a.ranges1.availFixed (n - a0) } }

/-! ### Hash-table header and operator state -/

/-- Modelled from the spec: `GpuBucketMembers::kNumSlots` — the number of
entry slots per hash-table bucket in the device ABI. -/
def kNumSlots : Nat := 4

/-- `GpuHashTableBase` (declared in `Wave.h`): the device-resident hash-table
header.  `sizeMask + 1` is the bucket count, `partitionMask + 1` the
partition count; `bucketsBase` models the bucket-array pointer. -/
structure GpuHashTableBase where
  sizeMask : Nat := 0
  partitionMask : Nat := 0
  maxEntries : Nat := 0
  numDistinct : Nat := 0
  bucketsBase : Nat := 0

/-- Total slot capacity of the table: `(sizeMask + 1) * kNumSlots`
(the `numSlots` lambda in `resupplyHashTable`). -/
def numSlots (t : GpuHashTableBase) : Nat := (t.sizeMask + 1) * kNumSlots

/-- An arena buffer (`WaveBufferPtr`): modelled by its device address, its
size in allocation units, and whether it was zero-filled. -/
structure WaveBuffer where
  base : Nat := 0
  size : Nat := 0
  zeroed : Bool := false

/-- `AggregateOperatorState`: the host mirror of the aggregation operator —
the hash-table header and per-partition allocators (laid out in the single
aligned device allocation), the retired-range list, the arena-owned buffers
(`buffers[1]` is the bucket array), and the arena itself (modelled as a
bump counter of fresh device addresses). -/
structure AggregateOperatorState where
  hashTable : GpuHashTableBase := {}
  allocators : List HashPartitionAllocator := []
  ranges : List AllocationRange := []
  buffers : List WaveBuffer := []
  arenaNext : Nat := 0
  isGrouped : Bool := false
  maxReadStreams : Nat := 0
  isNew : Bool := true
  rowSize : Nat := 0
  rangeIdx : Nat := 0
  rowIdx : Nat := 0
  numRows : Int := 0
  bytes : Int := 0
  resultRows : List Bool := []

/-- `AggregateReturn`: the grid-level device state written once per kernel
launch; its `numDistinct` field is the failure indicator read by
`canAdvance` (nonzero means some inserts failed for lack of memory). -/
structure AggregateReturn where
  numDistinct : Nat := 0
  deriving DecidableEq, Repr

/-- The recovery callbacks a continuation can carry (the `updateStatus`
function-pointer field of `AdvanceResult`), as an enumerable tag. -/
inductive UpdateStatusCallback where
  | resupplyHashTableCb
  deriving DecidableEq, Repr

/-- `AdvanceResult`: the continuation decision record.  The opaque
`reason` payload (an `OperatorState*`) is modelled by its address. -/
structure AdvanceResult where
  numRows : Nat := 0
  continueLabel : Nat := 0
  isRetry : Bool := false
  syncDrivers : Bool := false
  updateStatus : Option UpdateStatusCallback := none
  reason : Option Nat := none
  deriving DecidableEq, Repr

/-- The per-stream state read by `AbstractAggregation::canAdvance`: the
grid-level status of the last launch (`none` when no launch has occurred)
and the stream's current row count. -/
structure StreamState where
  gridState : Option AggregateReturn := none
  numRows : Nat := 0
  deriving DecidableEq, Repr

/-- `AbstractAggregation`: grouping keys (only emptiness is consulted here)
and the designated resume label. -/
structure AbstractAggregation where
  keys : List Nat := []
  continueLabel : Nat := 0

/-- The range built by `restockAllocator`'s constructor call
`AllocationRange(base, size, size, rowSize)`: capacity and row limit both
`size`, offsets zero, string heap starting at the top. -/
def freshRange (base size : Nat) : AllocationRange :=
  { base := base, capacity := size, rowLimit := size, stringOffset := size }

/-- `restockAllocator` (Instruction.cpp, lines 61–86): first covers as much
of the request as possible by raising row limits; if nothing remains, stops.
Otherwise, if the current range is fixed-full, retires it into the operator
state's range list and promotes the secondary range; then allocates a new
arena range sized to the full original request — and installs it
into the empty slot (`ranges[0]` if that is empty, else `ranges[1]`). -/
def restockAllocator (state : AggregateOperatorState) (size : Nat)
    (allocator : HashPartitionAllocator) :
    AggregateOperatorState × HashPartitionAllocator :=
  let rr := raiseRowLimits size allocator
  let allocator := rr.2
  if size ≤ rr.1 then (state, allocator)
  else
    let moved := allocator.ranges0.fixedFull
    let state :=
      if moved then { state with ranges := state.ranges ++ [allocator.ranges0] }
      else state
    let allocator :=
      if moved then { allocator with ranges0 := allocator.ranges1, ranges1 := {} }
      else allocator
    let buffer : WaveBuffer := { base := state.arenaNext, size := size }
    let state := { state with
      arenaNext := state.arenaNext + size
      buffers := state.buffers ++ [buffer] }
    let newRange := freshRange buffer.base size
    if allocator.ranges0.isEmpty then
      (state, { allocator with ranges0 := newRange })
    else
      (state, { allocator with ranges1 := newRange })

/-- `AggregateOperatorState::setSizesToSafe` (Instruction.cpp, lines
88–102): divides the remaining global capacity `maxEntries - numDistinct`
evenly across partitions and trims any partition whose available fixed
capacity (in rows) exceeds its share. -/
def AggregateOperatorState.setSizesToSafe (state : AggregateOperatorState) :
    AggregateOperatorState :=
  let hashTable := state.hashTable
  let numPartitions := hashTable.partitionMask + 1
  let rowSize := (state.allocators.headD {}).rowSize
  let spaceInTable := hashTable.maxEntries - hashTable.numDistinct
  let allowedPerPartition := spaceInTable / numPartitions
  { state with
    allocators := state.allocators.map fun a =>
      let availableInAllocator := availableFixed a / rowSize
      if allowedPerPartition < availableInAllocator then
        trimRows (allowedPerPartition * rowSize) a
      else a }

/-- The per-partition pass of `resupplyHashTable` (Instruction.cpp, lines
134–143): for each partition, reconcile overflow bookkeeping, then restock
exactly when the available fixed capacity is below the increment; threads
the operator bookkeeping state through the partitions. -/
def resupplyPartitions (increment : Nat) (state : AggregateOperatorState) :
    List HashPartitionAllocator →
    AggregateOperatorState × List HashPartitionAllocator
  | [] => (state, [])
  | a :: rest =>
    let a := clearOverflows a
    let sa :=
      if availableFixed a < increment then restockAllocator state increment a
      else (state, a)
    let sr := resupplyPartitions increment sa.1 rest
    (sr.1, sa.2 :: sr.2)

/-- The target new distinct-row capacity computed by `resupplyHashTable`
(Instruction.cpp, lines 117–124): the failed-insert count over the row
blocks of the stream (error code insufficient-memory) plus twice the
current distinct count, rounded up to a power of two. -/
def resupplyNewSize (state : AggregateOperatorState)
    (blockStatus : List BlockStatus) (numRows : Nat) : Nat :=
  let numBlocks := roundUp numRows kBlockSize / kBlockSize
  let numFailed := countErrors blockStatus numBlocks .kInsufficientMemory
  nextPowerOfTwo (numFailed + state.hashTable.numDistinct * 2)

/-- `resupplyHashTable` (Instruction.cpp, lines 104–181): the host-side
recovery routine.  Counts insufficient-memory failures, computes the target
distinct-row capacity `newSize` and the per-partition byte increment,
restocks partitions that are short, rehashes (new zeroed bucket array at
`buffers[1]`, updated size mask / bucket pointer / max entries, rehash
kernel launch — modelled by the returned flag) exactly when `newSize`
exceeds the current slot count, and finally reclamps partitions with
`setSizesToSafe`.  Device transfers and stream pooling are not modelled. -/
def resupplyHashTable (state : AggregateOperatorState)
    (blockStatus : List BlockStatus) (numRows rowSize : Nat) :
    AggregateOperatorState × Bool :=
  let numPartitions := state.hashTable.partitionMask + 1
  let newSize := resupplyNewSize state blockStatus numRows
  let increment := rowSize * (newSize - state.hashTable.numDistinct) / numPartitions
  let sp := resupplyPartitions increment state state.allocators
  let state := { sp.1 with allocators := sp.2 }
  let rehash := decide (numSlots state.hashTable < newSize)
  let state :=
    if numSlots state.hashTable < newSize then
      let newBuf : WaveBuffer :=
        { base := state.arenaNext, size := newSize / kNumSlots, zeroed := true }
      { state with
        buffers := state.buffers.set 1 newBuf
        arenaNext := state.arenaNext + newSize / kNumSlots
        hashTable := { state.hashTable with
          sizeMask := newSize / kNumSlots - 1
          bucketsBase := newBuf.base
          maxEntries := newSize / 6 * 5 } }
    else state
  (state.setSizesToSafe, rehash)

/-- `AbstractAggregation::canAdvance` (Instruction.cpp, lines 183–210): the
continuation decision.  With no grouping keys, or no grid state (no launch
yet), or a zero failure indicator, the result is empty (default).  With a
nonzero indicator it clears the grid state (zeroing it, so the next launch
starts clean) and returns a retry continuation.  `checkBlockStatuses` is a
diagnostic tally with no host-state effect and is not modelled.
`statePtr` models the `OperatorState*` argument. -/
def AbstractAggregation.canAdvance (agg : AbstractAggregation)
    (stream : StreamState) (statePtr : Nat) : AdvanceResult × StreamState :=
  if agg.keys.isEmpty then ({}, stream)
  else
    match stream.gridState with
    | none => ({}, stream)
    | some gridState =>
      if gridState.numDistinct ≠ 0 then
        ({ numRows := stream.numRows
           continueLabel := agg.continueLabel
           isRetry := true
           syncDrivers := true
           updateStatus := some .resupplyHashTableCb
           reason := some statePtr },
         { stream with gridState := some {} })
      else ({}, stream)

/-! ### Result-row counting and the drain cursor -/

/-- Modelled from the spec: `bits::countBits(bits, lo, hi)` — the number of
set bits at positions in `[lo, hi)` of the bitmap `f`. -/
def countBits (f : Nat → Bool) (lo hi : Nat) : Nat :=
  (List.range' lo (hi - lo)).countP f

/-- `countResultRows` (Instruction.cpp, lines 212–228): per range, the live
count is the row-slot count `(rowOffset - firstRowOffset) / rowSize` minus
the set bits of the leading deletion bitmap (the first
`firstRowOffset * 8` bit positions); the byte total adds the free string
space `capacity - stringOffset`.  `int` arithmetic, with C truncating
division, is modelled by `Int` and `Int.div`. -/
def countResultRows (ranges : List AllocationRange) (rowSize : Nat) :
    Int × Int :=
  ranges.foldl
    (fun acc range =>
      let numFree : Int := countBits range.deleted 0 (range.firstRowOffset * 8)
      let n : Int :=
        Int.tdiv ((range.rowOffset : Int) - (range.firstRowOffset : Int)) rowSize
          - numFree
      (acc.1 + n,
       acc.2 + (n * rowSize + ((range.capacity : Int) - (range.stringOffset : Int)))))
    (0, 0)

/-- `2^32`: the modulus of the `uint32_t` arithmetic in `makeResultRows`. -/
def u32 : Nat := 2 ^ 32

/-- The inner row loop of `makeResultRows` (Instruction.cpp, lines
245–254): starting at byte `offset` of row `startRow`, while
`offset ≤ limit`, skip bitmap-deleted rows and append live addresses
`base + offset`, stepping `offset` by `rowSize` in `uint32` arithmetic;
returns early (flag `true`) once `fill` reaches `maxRows`, advancing
`startRow` past the emitted row.  `fuel` only bounds the iteration count;
`u32` iterations cover every terminating execution of the source loop. -/
def makeRowsGo (deleted : Nat → Bool) (base limit rowSize maxRows : Nat) :
    Nat → Nat → Nat → Nat → List Nat → List Nat × Nat × Nat × Bool
  | 0, _, startRow, fill, acc => (acc, startRow, fill, false)
  | fuel + 1, offset, startRow, fill, acc =>
    if offset ≤ limit then
      if deleted startRow then
        makeRowsGo deleted base limit rowSize maxRows fuel
          ((offset + rowSize) % u32) (startRow + 1) fill acc
      else
        let acc := acc ++ [base + offset]
        let fill := fill + 1
        if maxRows ≤ fill then (acc, startRow + 1, fill, true)
        else
          makeRowsGo deleted base limit rowSize maxRows fuel
            ((offset + rowSize) % u32) (startRow + 1) fill acc
    else (acc, startRow, fill, false)

/-- The outer range loop of `makeResultRows` (Instruction.cpp, lines
239–256): per range, the scan starts at
`startRow * rowSize + firstRowOffset` and the scan limit is the `uint32`
difference `rowOffset - rowSize`; after a range is exhausted the row cursor
resets to `0` and the range cursor advances. -/
def makeRowsRanges (rowSize maxRows : Nat) :
    List AllocationRange → Nat → Nat → Nat → List Nat →
    List Nat × Nat × Nat
  | [], startRange, startRow, _, acc => (acc, startRange, startRow)
  | r :: rest, startRange, startRow, fill, acc =>
    let offset := (startRow * rowSize + r.firstRowOffset) % u32
    let limit := (r.rowOffset + u32 - rowSize) % u32
    let g := makeRowsGo r.deleted r.base limit rowSize maxRows u32
      offset startRow fill acc
    if g.2.2.2 then (g.1, startRange, g.2.1)
    else makeRowsRanges rowSize maxRows rest (startRange + 1) 0 g.2.2.1 g.1

/-- The persisted drain cursor (`startRange`, `startRow`), passed to
`makeResultRows` by reference. -/
structure ResultCursor where
  startRange : Nat := 0
  startRow : Nat := 0
  deriving DecidableEq, Repr

/-- `makeResultRows` (Instruction.cpp, lines 230–258): collects up to
`maxRows` live row addresses starting at the cursor, returning the
addresses (the source writes them to `result` and returns their count) and
the updated cursor. -/
def makeResultRows (ranges : List AllocationRange) (rowSize maxRows : Nat)
    (c : ResultCursor) : List Nat × ResultCursor :=
  let g := makeRowsRanges rowSize maxRows (ranges.drop c.startRange)
    c.startRange c.startRow 0 []
  (g.1, ⟨g.2.1, g.2.2⟩)

/-! ### The grouped read drain -/

/-- `FLAGS_wave_max_reader_batch_rows`: the configured maximum rows per
read-aggregation batch (default `80 * 1024`). -/
def waveMaxReaderBatchRows : Nat := 80 * 1024

/-- Modelled from the spec: `AllocationRange::clearOverflows(rowSize)` —
clears the per-range overflow marker left by concurrent writers by clamping
the fill back to the soft cap. -/
def AllocationRange.clearOverflowsR (r : AllocationRange) (_rowSize : Nat) :
    AllocationRange :=
  { r with rowOffset := min r.rowOffset r.rowLimit }

/-- The first-call (`isNew`) setup of the grouped read drain
(Instruction.cpp, lines 279–315): flattens every partition's non-empty
ranges (current then secondary, in partition order) into the operator
state's range list, clearing each range's overflow marker; resets the drain
cursor; computes the live row/byte totals; and sets up the per-reader
result-pointer slots (device wiring is not modelled beyond the host flags). -/
def readAggSetup (state : AggregateOperatorState) : AggregateOperatorState :=
  let moved :=
    ((state.allocators.map fun a => [a.ranges0, a.ranges1]).flatten.filter
      fun r => !r.isEmpty).map fun r => r.clearOverflowsR state.rowSize
  let newRanges := state.ranges ++ moved
  let cnt := countResultRows newRanges state.rowSize
  { state with
    isNew := false
    allocators := state.allocators.map fun a =>
      { a with
        ranges0 := if a.ranges0.isEmpty then a.ranges0 else {}
        ranges1 := if a.ranges1.isEmpty then a.ranges1 else {} }
    ranges := newRanges
    rangeIdx := 0
    rowIdx := 0
    numRows := cnt.1
    bytes := cnt.2
    resultRows := List.replicate state.maxReadStreams false }

/-- `AbstractReadAggregation::canAdvance` (Instruction.cpp, lines 260–357):
the grouped-result drain.  Grouped path: a stream whose index is at or past
the configured maximum of concurrent readers yields the empty result with
the state untouched; otherwise the first call runs the `isNew` setup, a
stream without its own pointer buffer gets one (host flag), and the shared
cursor advances through `makeResultRows`; zero collected rows yield the
empty result.  Keyless path: a one-shot continuation on the first call.
Device transfers and the mutex are not modelled. -/
def AbstractReadAggregation.canAdvance (continueLabel : Nat)
    (state : AggregateOperatorState) (streamIdx : Nat) :
    AdvanceResult × AggregateOperatorState :=
  let batchSize := waveMaxReaderBatchRows
  if state.isGrouped then
    if state.maxReadStreams ≤ streamIdx then ({}, state)
    else
      let state := if state.isNew then readAggSetup state else state
      let state :=
        if state.resultRows.getD streamIdx false then state
        else { state with resultRows := state.resultRows.set streamIdx true }
      let mr := makeResultRows state.ranges state.rowSize batchSize
        ⟨state.rangeIdx, state.rowIdx⟩
      let state := { state with
        rangeIdx := mr.2.startRange
        rowIdx := mr.2.startRow }
      if mr.1.length = 0 then ({}, state)
      else ({ numRows := mr.1.length }, state)
  else
    if state.isNew then
      ({ numRows := 1, continueLabel := continueLabel },
       { state with isNew := false })
    else ({}, state)

/-! ### Specification-side definitions for the drain cursor

These follow the spec's words ("every live row … exactly once, in range
order then ascending offset") and are compared with `makeResultRows` in the
refinement theorems. -/

/-- The number of row slots of a range: `(rowOffset - firstRowOffset) /
rowSize`. -/
def rowsOf (r : AllocationRange) (rowSize : Nat) : Nat :=
  (r.rowOffset - r.firstRowOffset) / rowSize

/-- The addresses of the non-deleted rows of a range with index at least
`s`, in ascending offset order. -/
def liveRowsFrom (r : AllocationRange) (rowSize s : Nat) : List Nat :=
  ((List.range' s (rowsOf r rowSize - s)).filter fun i => !r.deleted i).map
    fun i => r.base + (r.firstRowOffset + i * rowSize)

/-- The live addresses of a suffix of the range list, the first range
starting at row `s`, later ranges from row `0`: range order, then ascending
offset within a range. -/
def liveSuffix (rs : List AllocationRange) (rowSize s : Nat) : List Nat :=
  match rs with
  | [] => []
  | r :: rest =>
    liveRowsFrom r rowSize s ++ (rest.map (liveRowsFrom · rowSize 0)).flatten

/-- The live addresses still to be handed out from cursor `c`. -/
def liveFromCursor (ranges : List AllocationRange) (rowSize : Nat)
    (c : ResultCursor) : List Nat :=
  liveSuffix (ranges.drop c.startRange) rowSize c.startRow

/-- The row-slot count of the first range of a suffix (`0` when there is
none); a cursor is well placed when its row index is at most this. -/
def rowsOfHead (rs : List AllocationRange) (rowSize : Nat) : Nat :=
  match rs with
  | [] => 0
  | r :: _ => rowsOf r rowSize

/-- Well-formedness of a range for the drain proofs: the row area is a
whole number of rows, holds at least one row, and offsets fit in 32 bits. -/
def RangeWf (r : AllocationRange) (rowSize : Nat) : Prop :=
  r.firstRowOffset + rowsOf r rowSize * rowSize = r.rowOffset ∧
  rowSize ≤ r.rowOffset ∧ r.rowOffset < u32

instance (r : AllocationRange) (rowSize : Nat) :
    Decidable (RangeWf r rowSize) := by
  unfold RangeWf
  infer_instance

/-! ### Concrete states used by the scenario theorems -/

/-- The spec's drain scenario range: one range of 10 rows of 16 bytes (a
16-byte leading bitmap region, so rows at offsets 16…160), rows
`{0, 3, 7}` bitmap-deleted. -/
def scenarioRange : AllocationRange :=
  { base := 1000, capacity := 176, rowLimit := 176, firstRowOffset := 16,
    rowOffset := 176, stringOffset := 176,
    deleted := fun i => i == 0 || i == 3 || i == 7 }

/-- One row block of 100 rows, all failed with insufficient memory. -/
def exBlocks100 : List BlockStatus :=
  [⟨100, fun _ => .kInsufficientMemory⟩]

/-- A one-partition state with 256 slots (sizeMask 63), 50 distinct rows,
`maxEntries` 210 and an empty allocator of row size 16. -/
def exState50 : AggregateOperatorState :=
  { hashTable := { sizeMask := 63, partitionMask := 0, maxEntries := 210,
                   numDistinct := 50 },
    allocators := [{ rowSize := 16 }],
    buffers := [{}, {}] }

/-- Like `exState50` but with only 64 slots (sizeMask 15), so a failure
burst forces a rehash. -/
def exStateSmall : AggregateOperatorState :=
  { hashTable := { sizeMask := 15, partitionMask := 0, maxEntries := 53,
                   numDistinct := 50 },
    allocators := [{ rowSize := 16 }],
    buffers := [{}, {}] }

/-- An allocator whose current range can cover 16 more bytes by raising its
soft cap (capacity 100, limit and fill 84), secondary range empty. -/
def exAllocatorSlack : HashPartitionAllocator :=
  { ranges0 := { base := 0, capacity := 100, rowLimit := 84, rowOffset := 84,
                 stringOffset := 100 },
    ranges1 := {},
    rowSize := 16 }

/-- A range with zero row slots but one set bit in its leading deletion
bitmap: `countResultRows` counts it as `-1` live rows. -/
def exOverDeleted : AllocationRange :=
  { firstRowOffset := 8, rowOffset := 8, deleted := fun i => i == 0 }

/-! ## Theorems -/

set_option maxRecDepth 4000 in
/-- C1: in `resupplyHashTable`, the target new distinct-row capacity equals
the next power of two greater than or equal to `numFailed + 2 *
numDistinct`, where `numFailed` counts per-row insufficient-memory errors
over the row blocks and `numDistinct` is the table's distinct count: the
target is an upper bound of that sum, is a power of two (or zero), and is
minimal among powers of two bounding the sum; for `numFailed = 100` and
`numDistinct = 50` the target is `256`. -/
theorem c1_target_capacity :
    (∀ (state : AggregateOperatorState) (bs : List BlockStatus) (numRows : Nat),
      countErrors bs (roundUp numRows kBlockSize / kBlockSize) .kInsufficientMemory
          + 2 * state.hashTable.numDistinct ≤ resupplyNewSize state bs numRows ∧
      (resupplyNewSize state bs numRows = 0 ∨
        ∃ m, resupplyNewSize state bs numRows = 2 ^ m) ∧
      (∀ k,
        countErrors bs (roundUp numRows kBlockSize / kBlockSize) .kInsufficientMemory
            + 2 * state.hashTable.numDistinct ≤ 2 ^ k →
        resupplyNewSize state bs numRows ≤ 2 ^ k)) ∧
    resupplyNewSize exState50 exBlocks100 100 = 256 := by
  constructor
  · intro state bs numRows
    have e : resupplyNewSize state bs numRows =
        nextPowerOfTwo
          (countErrors bs (roundUp numRows kBlockSize / kBlockSize)
            .kInsufficientMemory + state.hashTable.numDistinct * 2) := rfl
    rw [e]
    refine ⟨?_, nextPowerOfTwo_pow _, ?_⟩
    · have h := nextPowerOfTwo_ge
        (countErrors bs (roundUp numRows kBlockSize / kBlockSize) .kInsufficientMemory
          + state.hashTable.numDistinct * 2)
      omega
    · intro k hk
      exact nextPowerOfTwo_minimal _ k (by omega)
  · decide

set_option maxRecDepth 4000 in
/-- Witness for C1 at the spec's scenario: 100 failures and 50 distinct
rows give a target of 256, bounded by `2 ^ 8`. -/
theorem c1_target_capacity_witness :
    200 ≤ resupplyNewSize exState50 exBlocks100 100 ∧
    resupplyNewSize exState50 exBlocks100 100 ≤ 2 ^ 8 := by
  constructor
  · have h := (c1_target_capacity.1 exState50 exBlocks100 100).1
    have e : countErrors exBlocks100 (roundUp 100 kBlockSize / kBlockSize)
        .kInsufficientMemory + 2 * exState50.hashTable.numDistinct = 200 := by decide
    omega
  · exact (c1_target_capacity.1 exState50 exBlocks100 100).2.2 8 (by decide)

/-- C4: with grouping keys present and a nonzero grid-level failure
indicator, `AbstractAggregation::canAdvance` returns a retry result with
the stream's row count, the designated continue label, `isRetry`,
`syncDrivers`, the `resupplyHashTable` recovery callback, and the operator
state as payload — and it clears the grid-level state (zeroing it) as an
observable side effect. -/
theorem c4_canAdvance_retry (agg : AbstractAggregation) (stream : StreamState)
    (statePtr : Nat) (g : AggregateReturn) (hkeys : agg.keys ≠ [])
    (hg : stream.gridState = some g) (hfail : g.numDistinct ≠ 0) :
    agg.canAdvance stream statePtr =
      ({ numRows := stream.numRows, continueLabel := agg.continueLabel,
         isRetry := true, syncDrivers := true,
         updateStatus := some .resupplyHashTableCb, reason := some statePtr },
       { stream with gridState := some { numDistinct := 0 } }) := by
  cases hk : agg.keys with
  | nil => exact absurd hk hkeys
  | cons x xs =>
    simp [AbstractAggregation.canAdvance, hk, hg, hfail]

/-- Witness for C4 at a concrete grouped stream with 3 failed inserts. -/
theorem c4_canAdvance_retry_witness :
    AbstractAggregation.canAdvance { keys := [1], continueLabel := 7 }
        { gridState := some ⟨3⟩, numRows := 42 } 99 =
      ({ numRows := 42, continueLabel := 7, isRetry := true,
         syncDrivers := true, updateStatus := some .resupplyHashTableCb,
         reason := some 99 },
       { gridState := some ⟨0⟩, numRows := 42 }) :=
  c4_canAdvance_retry _ _ _ ⟨3⟩ (by decide) rfl (by decide)

/-- C5: `AbstractAggregation::canAdvance` returns the empty (default)
result, leaving the stream state untouched, when the aggregation has no
grouping keys, when no grid-level state exists (no launch yet), or when the
grid-level state reports zero failures. -/
theorem c5_canAdvance_empty (agg : AbstractAggregation) (stream : StreamState)
    (statePtr : Nat) :
    (agg.keys = [] → agg.canAdvance stream statePtr = ({}, stream)) ∧
    (stream.gridState = none → agg.canAdvance stream statePtr = ({}, stream)) ∧
    (∀ g, stream.gridState = some g → g.numDistinct = 0 →
      agg.canAdvance stream statePtr = ({}, stream)) := by
  refine ⟨fun h => ?_, fun h => ?_, fun g hg h0 => ?_⟩
  · simp [AbstractAggregation.canAdvance, h]
  · cases hk : agg.keys <;> simp [AbstractAggregation.canAdvance, hk, h]
  · cases hk : agg.keys <;> simp [AbstractAggregation.canAdvance, hk, hg, h0]

/-- Witness for C5 at concrete streams covering all three empty cases. -/
theorem c5_canAdvance_empty_witness :
    AbstractAggregation.canAdvance { keys := [] }
        { gridState := some ⟨5⟩, numRows := 3 } 0 =
      ({}, { gridState := some ⟨5⟩, numRows := 3 }) ∧
    AbstractAggregation.canAdvance { keys := [1] } {} 0 = ({}, {}) ∧
    AbstractAggregation.canAdvance { keys := [1] } { gridState := some ⟨0⟩ } 0 =
      ({}, { gridState := some ⟨0⟩ }) :=
  ⟨(c5_canAdvance_empty _ _ _).1 rfl, (c5_canAdvance_empty _ _ _).2.1 rfl,
   (c5_canAdvance_empty _ _ _).2.2 ⟨0⟩ rfl rfl⟩

/-- C9: on a grouped aggregation, a reader stream whose index is at or
beyond the configured maximum of concurrent read streams gets the empty
result from `AbstractReadAggregation::canAdvance`, with the operator state
(drain cursor included) unchanged. -/
theorem c9_read_idle (label : Nat) (state : AggregateOperatorState)
    (streamIdx : Nat) (hg : state.isGrouped = true)
    (hidx : state.maxReadStreams ≤ streamIdx) :
    AbstractReadAggregation.canAdvance label state streamIdx = ({}, state) := by
  simp [AbstractReadAggregation.canAdvance, hg, hidx]

/-- Witness for C9: two configured readers, stream index 5. -/
theorem c9_read_idle_witness :
    AbstractReadAggregation.canAdvance 0
        { isGrouped := true, maxReadStreams := 2 } 5 =
      ({}, { isGrouped := true, maxReadStreams := 2 }) :=
  c9_read_idle 0 _ 5 rfl (by decide)

/-- The per-range live-row term of `countResultRows`, written as the spec
states it: row slots minus leading-bitmap set bits. -/
def liveTerm (r : AllocationRange) (rowSize : Nat) : Int :=
  Int.tdiv ((r.rowOffset : Int) - (r.firstRowOffset : Int)) rowSize
    - (countBits r.deleted 0 (r.firstRowOffset * 8) : Int)

theorem countResultRows_fst_eq (ranges : List AllocationRange) (rowSize : Nat) :
    (countResultRows ranges rowSize).1 =
      (ranges.map (liveTerm · rowSize)).sum := by
  suffices h : ∀ acc : Int × Int,
      (ranges.foldl
        (fun acc range =>
          let numFree : Int := countBits range.deleted 0 (range.firstRowOffset * 8)
          let n : Int :=
            Int.tdiv ((range.rowOffset : Int) - (range.firstRowOffset : Int)) rowSize
              - numFree
          (acc.1 + n,
           acc.2 + (n * rowSize + ((range.capacity : Int) - (range.stringOffset : Int)))))
        acc).1 = acc.1 + (ranges.map (liveTerm · rowSize)).sum by
    simpa [countResultRows] using h (0, 0)
  induction ranges with
  | nil => intro acc; simp
  | cons r rest ih =>
    intro acc
    simp only [List.foldl_cons, List.map_cons, List.sum_cons, ih]
    simp [liveTerm]
    ring

/-- C8 (amended): the live-row count of `countResultRows` equals the sum
over the ranges of `(rowOffset - firstRowOffset) / rowSize` minus the set
bits of the range's leading deletion bitmap; and whenever each range's
deleted bits number at most its row slots (deleted rows are rows), the
count is non-negative.  (Unrestricted ranges can drive it negative, see the
counterexample.) -/
theorem c8_live_count (ranges : List AllocationRange) (rowSize : Nat)
    (hwf : ∀ r ∈ ranges, r.firstRowOffset ≤ r.rowOffset ∧
      countBits r.deleted 0 (r.firstRowOffset * 8) ≤
        (r.rowOffset - r.firstRowOffset) / rowSize) :
    (countResultRows ranges rowSize).1 =
      (ranges.map (liveTerm · rowSize)).sum ∧
    0 ≤ (countResultRows ranges rowSize).1 := by
  refine ⟨countResultRows_fst_eq ranges rowSize, ?_⟩
  rw [countResultRows_fst_eq ranges rowSize]
  refine List.sum_nonneg ?_
  intro x hx
  rcases List.mem_map.1 hx with ⟨r, hr, rfl⟩
  rcases hwf r hr with ⟨hle, hbits⟩
  have e1 : ((r.rowOffset : Int) - (r.firstRowOffset : Int)) =
      ((r.rowOffset - r.firstRowOffset : Nat) : Int) := by omega
  have e2 : Int.tdiv ((r.rowOffset - r.firstRowOffset : Nat) : Int) (rowSize : Int) =
      (((r.rowOffset - r.firstRowOffset) / rowSize : Nat) : Int) := by
    exact_mod_cast Int.ofNat_tdiv _ _
  simp only [liveTerm, e1, e2]
  have := hbits
  omega

set_option maxRecDepth 4000 in
/-- Witness for C8 at the drain-scenario range: 10 slots, 3 deleted bits,
live count 7. -/
theorem c8_live_count_witness :
    (countResultRows [scenarioRange] 16).1 = 7 ∧
    0 ≤ (countResultRows [scenarioRange] 16).1 := by
  refine ⟨by decide, (c8_live_count [scenarioRange] 16 ?_).2⟩
  intro r hr
  have h := List.mem_singleton.1 hr
  subst h
  exact ⟨by decide, by decide⟩

set_option maxRecDepth 4000 in
/-- Counterexample for C8 as stated: a range with zero row slots but one
set bit in its leading deletion bitmap makes the count negative. -/
theorem c8_live_count_counterexample :
    (countResultRows [exOverDeleted] 16).1 = -1 ∧
    (countResultRows [exOverDeleted] 16).1 < 0 := by
  constructor <;> decide

/-- C7 (amended): `restockAllocator` reduces the request by what
`raiseRowLimits` covered and stops when nothing remains (state untouched,
allocator only limit-raised); otherwise it appends a fresh arena buffer and
installs a new range sized to the FULL originally requested size (the
source passes `size`, not the remainder, to the arena and the range
constructor), retiring a fixed-full current range into the operator state's
range list and promoting the secondary range first. -/
theorem c7_restock (state : AggregateOperatorState) (size : Nat)
    (a : HashPartitionAllocator) :
    (size ≤ (raiseRowLimits size a).1 →
      restockAllocator state size a = (state, (raiseRowLimits size a).2)) ∧
    ((raiseRowLimits size a).1 < size →
      (restockAllocator state size a).1.arenaNext = state.arenaNext + size ∧
      (restockAllocator state size a).1.buffers =
        state.buffers ++ [{ base := state.arenaNext, size := size }] ∧
      ((raiseRowLimits size a).2.ranges0.fixedFull = true →
        (restockAllocator state size a).1.ranges =
          state.ranges ++ [(raiseRowLimits size a).2.ranges0]) ∧
      ((raiseRowLimits size a).2.ranges0.fixedFull = false →
        (restockAllocator state size a).1.ranges = state.ranges) ∧
      ((restockAllocator state size a).2.ranges0 = freshRange state.arenaNext size ∨
        (restockAllocator state size a).2.ranges1 = freshRange state.arenaNext size) ∧
      ((raiseRowLimits size a).2.ranges0.fixedFull = true →
        (restockAllocator state size a).2.ranges0 = (raiseRowLimits size a).2.ranges1 ∨
        (restockAllocator state size a).2.ranges0 = freshRange state.arenaNext size)) := by
  constructor
  · intro h
    simp [restockAllocator, h]
  · intro h
    have hn : ¬ size ≤ (raiseRowLimits size a).1 := by omega
    by_cases hf : (raiseRowLimits size a).2.ranges0.fixedFull
    · by_cases he : (raiseRowLimits size a).2.ranges1.isEmpty
      · simp [restockAllocator, hn, hf, he]
      · simp [restockAllocator, hn, hf, he]
    · by_cases he : (raiseRowLimits size a).2.ranges0.isEmpty
      · simp [restockAllocator, hn, hf, he]
      · simp [restockAllocator, hn, hf, he]

/-- Witness for C7 at the slack allocator: the arena advances by the full
32-byte request and a fresh 32-byte range is installed. -/
theorem c7_restock_witness :
    (restockAllocator {} 32 exAllocatorSlack).1.arenaNext = 0 + 32 ∧
    ((restockAllocator {} 32 exAllocatorSlack).2.ranges0 = freshRange 0 32 ∨
      (restockAllocator {} 32 exAllocatorSlack).2.ranges1 = freshRange 0 32) := by
  have h := (c7_restock {} 32 exAllocatorSlack).2 (by decide)
  exact ⟨h.1, h.2.2.2.2.1⟩

/-- Counterexample for C7 as stated: with 16 of a 32-byte request covered
by `raiseRowLimits`, the new range is sized 32 — the full request — and not
the 16-byte remainder. -/
theorem c7_restock_counterexample :
    (raiseRowLimits 32 exAllocatorSlack).1 = 16 ∧
    (restockAllocator {} 32 exAllocatorSlack).2.ranges1.capacity = 32 ∧
    (32 : Nat) ≠ 32 - 16 := by
  refine ⟨by decide, by decide, by decide⟩

theorem restockAllocator_state_inv (st : AggregateOperatorState) (size : Nat)
    (a : HashPartitionAllocator) :
    (restockAllocator st size a).1.hashTable = st.hashTable ∧
    st.buffers.length ≤ (restockAllocator st size a).1.buffers.length := by
  by_cases h : size ≤ (raiseRowLimits size a).1
  · simp [restockAllocator, h]
  · by_cases hf : (raiseRowLimits size a).2.ranges0.fixedFull
    · by_cases he : (raiseRowLimits size a).2.ranges1.isEmpty <;>
        simp [restockAllocator, h, hf, he]
    · by_cases he : (raiseRowLimits size a).2.ranges0.isEmpty <;>
        simp [restockAllocator, h, hf, he]

theorem resupplyPartitions_state_inv (inc : Nat) :
    ∀ (as : List HashPartitionAllocator) (st : AggregateOperatorState),
      (resupplyPartitions inc st as).1.hashTable = st.hashTable ∧
      st.buffers.length ≤ (resupplyPartitions inc st as).1.buffers.length := by
  intro as
  induction as with
  | nil => intro st; simp [resupplyPartitions]
  | cons a rest ih =>
    intro st
    simp only [resupplyPartitions]
    by_cases h : availableFixed (clearOverflows a) < inc
    · simp only [h, if_true]
      have h1 := restockAllocator_state_inv st inc (clearOverflows a)
      have h2 := ih (restockAllocator st inc (clearOverflows a)).1
      exact ⟨by rw [h2.1, h1.1], by omega⟩
    · simp only [h, if_false]
      exact ih st

theorem setSizesToSafe_hashTable (st : AggregateOperatorState) :
    st.setSizesToSafe.hashTable = st.hashTable ∧
    st.setSizesToSafe.buffers = st.buffers :=
  ⟨rfl, rfl⟩

theorem pow2_div4 (n : Nat) (hpow : n = 0 ∨ ∃ m, n = 2 ^ m) (h4 : 4 < n) :
    n / 4 * 4 = n := by
  rcases hpow with h | ⟨m, rfl⟩
  · omega
  · rcases Nat.lt_or_ge m 2 with hm | hm
    · interval_cases m <;> norm_num at h4
    · have hdvd : (4 : Nat) ∣ 2 ^ m := by
        refine ⟨2 ^ (m - 2), ?_⟩
        rw [show (4 : Nat) = 2 ^ 2 by norm_num, ← pow_add]
        congr 1
        omega
      exact Nat.div_mul_cancel hdvd

theorem resupplyHashTable_snd (state : AggregateOperatorState)
    (bs : List BlockStatus) (numRows rowSize : Nat) :
    (resupplyHashTable state bs numRows rowSize).2 =
      decide (numSlots state.hashTable < resupplyNewSize state bs numRows) := by
  have hht := (resupplyPartitions_state_inv
    (rowSize * (resupplyNewSize state bs numRows - state.hashTable.numDistinct) /
      (state.hashTable.partitionMask + 1)) state.allocators state).1
  simp only [resupplyHashTable]
  rw [hht]

theorem resupplyHashTable_fst_hashTable (state : AggregateOperatorState)
    (bs : List BlockStatus) (numRows rowSize : Nat) :
    (resupplyHashTable state bs numRows rowSize).1.hashTable =
      if numSlots state.hashTable < resupplyNewSize state bs numRows then
        { state.hashTable with
          sizeMask := resupplyNewSize state bs numRows / kNumSlots - 1
          bucketsBase := (resupplyPartitions
            (rowSize * (resupplyNewSize state bs numRows - state.hashTable.numDistinct) /
              (state.hashTable.partitionMask + 1)) state state.allocators).1.arenaNext
          maxEntries := resupplyNewSize state bs numRows / 6 * 5 }
      else state.hashTable := by
  have hht := (resupplyPartitions_state_inv
    (rowSize * (resupplyNewSize state bs numRows - state.hashTable.numDistinct) /
      (state.hashTable.partitionMask + 1)) state.allocators state).1
  simp only [resupplyHashTable]
  rw [hht]
  split
  · rfl
  · rfl

theorem resupplyHashTable_fst_buffers (state : AggregateOperatorState)
    (bs : List BlockStatus) (numRows rowSize : Nat) :
    (resupplyHashTable state bs numRows rowSize).1.buffers =
      if numSlots state.hashTable < resupplyNewSize state bs numRows then
        (resupplyPartitions
          (rowSize * (resupplyNewSize state bs numRows - state.hashTable.numDistinct) /
            (state.hashTable.partitionMask + 1)) state state.allocators).1.buffers.set 1
          { base := (resupplyPartitions
              (rowSize * (resupplyNewSize state bs numRows - state.hashTable.numDistinct) /
                (state.hashTable.partitionMask + 1)) state state.allocators).1.arenaNext,
            size := resupplyNewSize state bs numRows / kNumSlots, zeroed := true }
      else
        (resupplyPartitions
          (rowSize * (resupplyNewSize state bs numRows - state.hashTable.numDistinct) /
            (state.hashTable.partitionMask + 1)) state state.allocators).1.buffers := by
  have hht := (resupplyPartitions_state_inv
    (rowSize * (resupplyNewSize state bs numRows - state.hashTable.numDistinct) /
      (state.hashTable.partitionMask + 1)) state.allocators state).1
  simp only [resupplyHashTable]
  rw [hht]
  split
  · rfl
  · rfl

/-- C2: `resupplyHashTable` rehashes — returned flag, new zeroed bucket
array installed at `buffers[1]`, size mask, bucket pointer and max-entries
updated — exactly when the target `newSize` exceeds the current total slot
capacity `(sizeMask + 1) * kNumSlots`; with `newSize` at or below the
current slot count the header is untouched; and the slot capacity never
decreases. -/
theorem c2_rehash_iff (state : AggregateOperatorState) (bs : List BlockStatus)
    (numRows rowSize : Nat) (hbuf : 2 ≤ state.buffers.length) :
    ((resupplyHashTable state bs numRows rowSize).2 = true ↔
      numSlots state.hashTable < resupplyNewSize state bs numRows) ∧
    ((resupplyHashTable state bs numRows rowSize).2 = false →
      (resupplyHashTable state bs numRows rowSize).1.hashTable = state.hashTable) ∧
    ((resupplyHashTable state bs numRows rowSize).2 = true →
      (resupplyHashTable state bs numRows rowSize).1.hashTable.sizeMask =
        resupplyNewSize state bs numRows / kNumSlots - 1 ∧
      (resupplyHashTable state bs numRows rowSize).1.hashTable.maxEntries =
        resupplyNewSize state bs numRows / 6 * 5 ∧
      ∃ base,
        (resupplyHashTable state bs numRows rowSize).1.buffers[1]? =
          some { base := base,
                 size := resupplyNewSize state bs numRows / kNumSlots,
                 zeroed := true } ∧
        (resupplyHashTable state bs numRows rowSize).1.hashTable.bucketsBase =
          base) ∧
    numSlots state.hashTable ≤
      numSlots (resupplyHashTable state bs numRows rowSize).1.hashTable := by
  have hht := (resupplyPartitions_state_inv
    (rowSize * (resupplyNewSize state bs numRows - state.hashTable.numDistinct) /
      (state.hashTable.partitionMask + 1)) state.allocators state).1
  have hlen := (resupplyPartitions_state_inv
    (rowSize * (resupplyNewSize state bs numRows - state.hashTable.numDistinct) /
      (state.hashTable.partitionMask + 1)) state.allocators state).2
  have hsnd := resupplyHashTable_snd state bs numRows rowSize
  have hfst := resupplyHashTable_fst_hashTable state bs numRows rowSize
  have hbufs := resupplyHashTable_fst_buffers state bs numRows rowSize
  by_cases hlt : numSlots state.hashTable < resupplyNewSize state bs numRows
  · rw [if_pos hlt] at hfst hbufs
    refine ⟨⟨fun _ => hlt, fun _ => by rw [hsnd]; exact decide_eq_true hlt⟩,
      fun hf => ?_, fun _ => ?_, ?_⟩
    · rw [hsnd, decide_eq_true hlt] at hf
      cases hf
    · refine ⟨by rw [hfst], by rw [hfst], ?_⟩
      refine ⟨_, ?_, by rw [hfst]⟩
      rw [hbufs]
      rw [List.getElem?_set_self]
      omega
    · have hpow2 : resupplyNewSize state bs numRows = 0 ∨
          ∃ m, resupplyNewSize state bs numRows = 2 ^ m :=
        nextPowerOfTwo_pow _
      have h4 : 4 < resupplyNewSize state bs numRows := by
        have h44 : 4 ≤ numSlots state.hashTable := by
          unfold numSlots kNumSlots
          omega
        omega
      have hdiv := pow2_div4 _ hpow2 h4
      rw [hfst]
      show numSlots state.hashTable ≤
        (resupplyNewSize state bs numRows / kNumSlots - 1 + 1) * kNumSlots
      unfold kNumSlots
      unfold kNumSlots at hdiv
      omega
  · rw [if_neg hlt] at hfst hbufs
    refine ⟨⟨fun h => ?_, fun h => absurd h hlt⟩, fun _ => hfst, fun h => ?_, ?_⟩
    · rw [hsnd, decide_eq_false hlt] at h
      cases h
    · rw [hsnd, decide_eq_false hlt] at h
      cases h
    · rw [hfst]

set_option maxRecDepth 4000 in
/-- Witness for C2 at a 64-slot table hit by 100 failures: the rehash fires,
`maxEntries` becomes `256 / 6 * 5 = 210`, and the slot capacity grows. -/
theorem c2_rehash_iff_witness :
    (resupplyHashTable exStateSmall exBlocks100 100 16).2 = true ∧
    (resupplyHashTable exStateSmall exBlocks100 100 16).1.hashTable.maxEntries = 210 ∧
    numSlots exStateSmall.hashTable ≤
      numSlots (resupplyHashTable exStateSmall exBlocks100 100 16).1.hashTable := by
  have h := c2_rehash_iff exStateSmall exBlocks100 100 16 (by decide)
  have ht : (resupplyHashTable exStateSmall exBlocks100 100 16).2 = true :=
    h.1.mpr (by decide)
  refine ⟨ht, ?_, h.2.2.2⟩
  have h2 := (h.2.2.1 ht).2.1
  have e : resupplyNewSize exStateSmall exBlocks100 100 = 256 := by decide
  rw [e] at h2
  simpa using h2

theorem raiseRowLimits_avail (size : Nat) (a : HashPartitionAllocator)
    (h0 : a.ranges0.rowOffset ≤ a.ranges0.rowLimit)
    (h1 : a.ranges1.rowOffset ≤ a.ranges1.rowLimit) :
    availableFixed (raiseRowLimits size a).2 =
      availableFixed a + (raiseRowLimits size a).1 := by
  simp only [raiseRowLimits, availableFixed, AllocationRange.availFixed]
  omega

theorem restockAllocator_avail (st : AggregateOperatorState) (size : Nat)
    (a : HashPartitionAllocator)
    (h0 : a.ranges0.rowOffset ≤ a.ranges0.rowLimit)
    (h1 : a.ranges1.rowOffset ≤ a.ranges1.rowLimit) :
    size ≤ availableFixed (restockAllocator st size a).2 := by
  have hr := raiseRowLimits_avail size a h0 h1
  by_cases hle : size ≤ (raiseRowLimits size a).1
  · simp only [restockAllocator, hle, if_true]
    omega
  · simp only [restockAllocator, hle, if_false]
    split_ifs <;>
      simp only [availableFixed, AllocationRange.availFixed, freshRange] <;>
      omega

theorem clearOverflows_le (a : HashPartitionAllocator) :
    (clearOverflows a).ranges0.rowOffset ≤ (clearOverflows a).ranges0.rowLimit ∧
    (clearOverflows a).ranges1.rowOffset ≤ (clearOverflows a).ranges1.rowLimit := by
  simp only [clearOverflows]
  omega

theorem resupplyPartitions_avail (inc : Nat) :
    ∀ (as : List HashPartitionAllocator) (st : AggregateOperatorState),
      ∀ a ∈ (resupplyPartitions inc st as).2, inc ≤ availableFixed a := by
  intro as
  induction as with
  | nil => intro st a ha; simp [resupplyPartitions] at ha
  | cons x rest ih =>
    intro st a ha
    simp only [resupplyPartitions] at ha
    by_cases h : availableFixed (clearOverflows x) < inc
    · simp only [h, if_true] at ha
      rcases List.mem_cons.1 ha with rfl | hmem
      · exact restockAllocator_avail st inc (clearOverflows x)
          (clearOverflows_le x).1 (clearOverflows_le x).2
      · exact ih _ a hmem
    · simp only [h, if_false] at ha
      rcases List.mem_cons.1 ha with rfl | hmem
      · omega
      · exact ih _ a hmem

theorem restockAllocator_rowSize (st : AggregateOperatorState) (size : Nat)
    (a : HashPartitionAllocator) :
    (restockAllocator st size a).2.rowSize = a.rowSize := by
  by_cases hle : size ≤ (raiseRowLimits size a).1
  · simp only [restockAllocator, hle, if_true]
    simp [raiseRowLimits]
  · simp only [restockAllocator, hle, if_false]
    split_ifs <;> simp [raiseRowLimits]

theorem resupplyPartitions_rowSizes (inc : Nat) :
    ∀ (as : List HashPartitionAllocator) (st : AggregateOperatorState),
      (resupplyPartitions inc st as).2.map (·.rowSize) = as.map (·.rowSize) := by
  intro as
  induction as with
  | nil => intro st; simp [resupplyPartitions]
  | cons x rest ih =>
    intro st
    simp only [resupplyPartitions]
    by_cases h : availableFixed (clearOverflows x) < inc
    · simp only [h, if_true, List.map_cons]
      rw [restockAllocator_rowSize]
      rw [ih]
      rfl
    · simp only [h, if_false, List.map_cons]
      rw [ih]
      rfl

theorem trimRows_avail (n : Nat) (a : HashPartitionAllocator) :
    availableFixed (trimRows n a) = min (availableFixed a) n := by
  simp only [trimRows, availableFixed, AllocationRange.availFixed]
  omega

theorem setSizesToSafe_bound (st : AggregateOperatorState) (inc : Nat)
    (h : ∀ a ∈ st.allocators, inc ≤ availableFixed a) :
    ∀ a ∈ st.setSizesToSafe.allocators,
      min inc ((st.hashTable.maxEntries - st.hashTable.numDistinct) /
          (st.hashTable.partitionMask + 1) * (st.allocators.headD {}).rowSize) ≤
        availableFixed a := by
  intro a ha
  simp only [AggregateOperatorState.setSizesToSafe, List.mem_map] at ha
  obtain ⟨b, hb, rfl⟩ := ha
  have hin := h b hb
  split
  · rw [trimRows_avail]
    omega
  · omega

theorem resupplyHashTable_fst_eq_setSizes (state : AggregateOperatorState)
    (bs : List BlockStatus) (numRows rowSize : Nat) :
    ∃ X : AggregateOperatorState,
      (resupplyHashTable state bs numRows rowSize).1 = X.setSizesToSafe ∧
      X.allocators = (resupplyPartitions
        (rowSize * (resupplyNewSize state bs numRows - state.hashTable.numDistinct) /
          (state.hashTable.partitionMask + 1)) state state.allocators).2 ∧
      X.hashTable = (resupplyHashTable state bs numRows rowSize).1.hashTable := by
  simp only [resupplyHashTable]
  split
  · exact ⟨_, rfl, rfl, rfl⟩
  · exact ⟨_, rfl, rfl, rfl⟩

theorem resupplyHashTable_numDistinct (state : AggregateOperatorState)
    (bs : List BlockStatus) (numRows rowSize : Nat) :
    (resupplyHashTable state bs numRows rowSize).1.hashTable.numDistinct =
      state.hashTable.numDistinct ∧
    (resupplyHashTable state bs numRows rowSize).1.hashTable.partitionMask =
      state.hashTable.partitionMask := by
  rw [resupplyHashTable_fst_hashTable]
  constructor <;> split <;> rfl

/-- C3 (amended): after `resupplyHashTable` returns, every partition's
available fixed capacity is at least the minimum of the computed increment
`rowSize * (newSize - numDistinct) / numPartitions` and the reclamped
per-partition share `(maxEntries - numDistinct) / numPartitions * rowSize`
(with the final, possibly rehash-updated `maxEntries`): the restock loop
establishes the increment for every partition, but the final
`setSizesToSafe` reclamp may trim a partition back below the increment, to
its share. -/
theorem c3_partition_capacity (state : AggregateOperatorState)
    (bs : List BlockStatus) (numRows rowSize : Nat)
    (hrow : ∀ a ∈ state.allocators, a.rowSize = rowSize) :
    ∀ a ∈ (resupplyHashTable state bs numRows rowSize).1.allocators,
      min (rowSize * (resupplyNewSize state bs numRows - state.hashTable.numDistinct) /
            (state.hashTable.partitionMask + 1))
          (((resupplyHashTable state bs numRows rowSize).1.hashTable.maxEntries -
              state.hashTable.numDistinct) /
            (state.hashTable.partitionMask + 1) * rowSize)
        ≤ availableFixed a := by
  obtain ⟨X, hX, hXalloc, hXht⟩ :=
    resupplyHashTable_fst_eq_setSizes state bs numRows rowSize
  intro a ha
  rw [hX] at ha
  have havail : ∀ b ∈ X.allocators,
      rowSize * (resupplyNewSize state bs numRows - state.hashTable.numDistinct) /
        (state.hashTable.partitionMask + 1) ≤ availableFixed b := by
    rw [hXalloc]
    exact resupplyPartitions_avail _ state.allocators state
  have hbound := setSizesToSafe_bound X _ havail a ha
  have hne : X.allocators ≠ [] := by
    intro h0
    simp only [AggregateOperatorState.setSizesToSafe, h0, List.map_nil] at ha
    exact (List.not_mem_nil a) ha
  have hmap : X.allocators.map (·.rowSize) = state.allocators.map (·.rowSize) := by
    rw [hXalloc]
    exact resupplyPartitions_rowSizes _ state.allocators state
  have hrs : (X.allocators.headD {}).rowSize = rowSize := by
    obtain ⟨b, rest, hcons⟩ := List.exists_cons_of_ne_nil hne
    cases hsa : state.allocators with
    | nil => rw [hcons, hsa] at hmap; simp at hmap
    | cons c cs =>
      rw [hcons, hsa] at hmap
      simp only [List.map_cons, List.cons.injEq] at hmap
      rw [hcons]
      simp only [List.headD_cons]
      rw [hmap.1]
      exact hrow c (by rw [hsa]; exact List.mem_cons_self c cs)
  rw [hrs, hXht, (resupplyHashTable_numDistinct state bs numRows rowSize).1,
    (resupplyHashTable_numDistinct state bs numRows rowSize).2] at hbound
  exact hbound

set_option maxRecDepth 6000 in
/-- Witness for C3 at the one-partition scenario state: after resupply the
single partition holds at least `min 3296 2560 = 2560` bytes of available
capacity. -/
theorem c3_partition_capacity_witness :
    min (16 * (resupplyNewSize exState50 exBlocks100 100 -
          exState50.hashTable.numDistinct) /
          (exState50.hashTable.partitionMask + 1))
        (((resupplyHashTable exState50 exBlocks100 100 16).1.hashTable.maxEntries -
            exState50.hashTable.numDistinct) /
          (exState50.hashTable.partitionMask + 1) * 16)
      ≤ availableFixed
          ((resupplyHashTable exState50 exBlocks100 100 16).1.allocators.headD {}) := by
  have h := c3_partition_capacity exState50 exBlocks100 100 16 (by decide)
  have hne : (resupplyHashTable exState50 exBlocks100 100 16).1.allocators ≠ [] := by
    intro h0
    have e : ((resupplyHashTable exState50 exBlocks100 100 16).1.allocators.map
        availableFixed) = [2560] := by decide
    rw [h0] at e
    simp at e
  obtain ⟨x, xs, hcons⟩ := List.exists_cons_of_ne_nil hne
  rw [hcons]
  simp only [List.headD_cons]
  exact h x (by rw [hcons]; exact List.mem_cons_self x xs)

set_option maxRecDepth 6000 in
/-- Counterexample for C3 as stated: at the one-partition scenario state the
final reclamp trims the partition to 2560 available bytes, strictly below
the computed increment 3296, so resupply does not leave every partition at
or above its increment. -/
theorem c3_partition_capacity_counterexample :
    ((resupplyHashTable exState50 exBlocks100 100 16).1.allocators.map
      availableFixed) = [2560] ∧
    16 * (resupplyNewSize exState50 exBlocks100 100 -
        exState50.hashTable.numDistinct) /
      (exState50.hashTable.partitionMask + 1) = 3296 ∧
    (2560 : Nat) < 3296 := by
  exact ⟨by decide, by decide, by decide⟩

/-! ### The drain cursor: refinement of `makeResultRows` -/

theorem liveRowsFrom_eq_nil (r : AllocationRange) (rowSize s : Nat)
    (h : rowsOf r rowSize ≤ s) : liveRowsFrom r rowSize s = [] := by
  simp [liveRowsFrom, Nat.sub_eq_zero_of_le h]

theorem liveRowsFrom_cons (r : AllocationRange) (rowSize s : Nat)
    (h : s < rowsOf r rowSize) :
    liveRowsFrom r rowSize s =
      if r.deleted s then liveRowsFrom r rowSize (s + 1)
      else (r.base + (r.firstRowOffset + s * rowSize)) ::
        liveRowsFrom r rowSize (s + 1) := by
  unfold liveRowsFrom
  have e : rowsOf r rowSize - s = (rowsOf r rowSize - (s + 1)) + 1 := by omega
  rw [e, List.range'_succ]
  by_cases hd : r.deleted s <;> simp [hd]

/-- The inner row loop of `makeResultRows` emits, in order, the next
`maxRows - fill` live addresses of the range from row `s` on, returns the
row index just past the last emitted row on early exit, and reports whether
it filled the batch. -/
theorem makeRowsGo_spec (r : AllocationRange) (rowSize maxRows : Nat)
    (hrs : 0 < rowSize)
    (hw1 : r.firstRowOffset + rowsOf r rowSize * rowSize = r.rowOffset)
    (hw2 : rowSize ≤ r.rowOffset) (hw3 : r.rowOffset < u32) :
    ∀ (fuel s fill : Nat) (acc : List Nat),
      s ≤ rowsOf r rowSize → fill < maxRows → rowsOf r rowSize - s < fuel →
      ∃ s',
        makeRowsGo r.deleted r.base (r.rowOffset - rowSize) rowSize maxRows fuel
            (r.firstRowOffset + s * rowSize) s fill acc =
          (acc ++ (liveRowsFrom r rowSize s).take (maxRows - fill), s',
            fill + min (maxRows - fill) (liveRowsFrom r rowSize s).length,
            decide ((maxRows - fill) ≤ (liveRowsFrom r rowSize s).length)) ∧
        liveRowsFrom r rowSize s' =
          (liveRowsFrom r rowSize s).drop (maxRows - fill) ∧
        s' ≤ rowsOf r rowSize := by
  intro fuel
  induction fuel with
  | zero => intro s fill acc hs hfill hfuel; omega
  | succ f ih =>
    intro s fill acc hs hfill hfuel
    rcases Nat.lt_or_ge s (rowsOf r rowSize) with hlt | hge
    · -- s < rowsOf r rowSize : the loop body runs
      have hexp : (s + 1) * rowSize = s * rowSize + rowSize := by ring
      have hmul : (s + 1) * rowSize ≤ rowsOf r rowSize * rowSize :=
        Nat.mul_le_mul_right _ (by omega)
      have hoff : r.firstRowOffset + s * rowSize ≤ r.rowOffset - rowSize := by
        omega
      have hval : r.firstRowOffset + s * rowSize + rowSize =
          r.firstRowOffset + (s + 1) * rowSize := by omega
      have hlt2 : r.firstRowOffset + (s + 1) * rowSize < u32 := by omega
      have hmod : (r.firstRowOffset + s * rowSize + rowSize) % u32 =
          r.firstRowOffset + (s + 1) * rowSize := by
        rw [hval, Nat.mod_eq_of_lt hlt2]
      simp only [makeRowsGo]
      rw [if_pos hoff]
      by_cases hd : r.deleted s = true
      case pos =>
        rw [if_pos hd, hmod]
        obtain ⟨s', h1, h2, h3⟩ := ih (s + 1) fill acc (by omega) hfill (by omega)
        have hL : liveRowsFrom r rowSize s = liveRowsFrom r rowSize (s + 1) := by
          rw [liveRowsFrom_cons r rowSize s hlt, if_pos hd]
        rw [hL]
        exact ⟨s', h1, h2, h3⟩
      case neg =>
        rw [if_neg hd]
        have hL : liveRowsFrom r rowSize s =
            (r.base + (r.firstRowOffset + s * rowSize)) ::
              liveRowsFrom r rowSize (s + 1) := by
          rw [liveRowsFrom_cons r rowSize s hlt, if_neg hd]
        by_cases hk : maxRows ≤ fill + 1
        · rw [if_pos hk]
          have hk1 : maxRows - fill = 1 := by omega
          refine ⟨s + 1, ?_, ?_, by omega⟩
          · rw [hL, hk1]
            simp only [List.take_succ_cons, List.take_zero, List.length_cons]
            have hdec : decide (1 ≤ (liveRowsFrom r rowSize (s + 1)).length + 1)
                = true := decide_eq_true (by omega)
            have hmin : min 1 ((liveRowsFrom r rowSize (s + 1)).length + 1) = 1 := by
              omega
            rw [hdec, hmin]
          · rw [hL, hk1]
            simp
        · rw [if_neg hk, hmod]
          obtain ⟨s', h1, h2, h3⟩ :=
            ih (s + 1) (fill + 1) (acc ++ [r.base + (r.firstRowOffset + s * rowSize)])
              (by omega) (by omega) (by omega)
          refine ⟨s', ?_, ?_, h3⟩
          · rw [h1, hL]
            have hk2 : maxRows - fill = (maxRows - (fill + 1)) + 1 := by omega
            rw [hk2]
            simp only [List.take_succ_cons, List.length_cons]
            rw [List.append_assoc]
            simp only [List.singleton_append]
            have hmin : fill + 1 + min (maxRows - (fill + 1))
                (liveRowsFrom r rowSize (s + 1)).length =
                fill + min (maxRows - (fill + 1) + 1)
                  ((liveRowsFrom r rowSize (s + 1)).length + 1) := by omega
            have hdec : decide (maxRows - (fill + 1) ≤
                (liveRowsFrom r rowSize (s + 1)).length) =
                decide (maxRows - (fill + 1) + 1 ≤
                  (liveRowsFrom r rowSize (s + 1)).length + 1) :=
              decide_eq_decide.mpr (by omega)
            rw [hmin, hdec]
          · rw [h2, hL]
            have hk2 : maxRows - fill = (maxRows - (fill + 1)) + 1 := by omega
            rw [hk2]
            simp
    · -- s = rowsOf r rowSize : the loop guard fails immediately
      have hseq : s = rowsOf r rowSize := le_antisymm hs hge
      subst hseq
      have hnil : liveRowsFrom r rowSize (rowsOf r rowSize) = [] :=
        liveRowsFrom_eq_nil r rowSize _ le_rfl
      simp only [makeRowsGo]
      rw [if_neg (by omega)]
      refine ⟨rowsOf r rowSize, ?_, ?_, le_rfl⟩
      · rw [hnil]
        simp only [List.take_nil, List.append_nil, List.length_nil]
        have hdec : decide (maxRows - fill ≤ 0) = false :=
          decide_eq_false (by omega)
        rw [hdec]
        have e : fill + min (maxRows - fill) 0 = fill := by omega
        rw [e]
      · rw [hnil]
        simp

theorem liveSuffix_cons (r : AllocationRange) (rest : List AllocationRange)
    (rowSize aRow : Nat) :
    liveSuffix (r :: rest) rowSize aRow =
      liveRowsFrom r rowSize aRow ++
        (rest.map (liveRowsFrom · rowSize 0)).flatten := rfl

theorem liveSuffix_zero (rest : List AllocationRange) (rowSize : Nat) :
    liveSuffix rest rowSize 0 =
      (rest.map (liveRowsFrom · rowSize 0)).flatten := by
  cases rest with
  | nil => simp [liveSuffix]
  | cons r rest => rw [liveSuffix_cons]; simp

theorem rowsOf_lt_u32 (r : AllocationRange) (rowSize : Nat)
    (hw3 : r.rowOffset < u32) : rowsOf r rowSize < u32 := by
  have := Nat.div_le_self (r.rowOffset - r.firstRowOffset) rowSize
  unfold rowsOf
  omega

/-- The outer range loop of `makeResultRows` emits the next
`maxRows - fill` live addresses of the range-list suffix and leaves the
cursor on the first unvisited live row. -/
theorem makeRowsRanges_spec (rowSize maxRows : Nat) (hrs : 0 < rowSize) :
    ∀ (rs : List AllocationRange) (startRange s fill : Nat) (acc : List Nat),
      (∀ r ∈ rs, RangeWf r rowSize) →
      s ≤ rowsOfHead rs rowSize → fill < maxRows →
      ∃ i s',
        makeRowsRanges rowSize maxRows rs startRange s fill acc =
          (acc ++ (liveSuffix rs rowSize s).take (maxRows - fill),
            startRange + i, s') ∧
        liveSuffix (rs.drop i) rowSize s' =
          (liveSuffix rs rowSize s).drop (maxRows - fill) ∧
        i ≤ rs.length ∧ s' ≤ rowsOfHead (rs.drop i) rowSize := by
  intro rs
  induction rs with
  | nil =>
    intro startRange s fill acc hwf hs hfill
    refine ⟨0, s, ?_, by simp [liveSuffix], by simp, by simpa using hs⟩
    simp [makeRowsRanges, liveSuffix]
  | cons r rest ih =>
    intro startRange s fill acc hwf hs hfill
    obtain ⟨hw1, hw2, hw3⟩ := hwf r (List.mem_cons_self r rest)
    have hsr : s ≤ rowsOf r rowSize := by simpa [rowsOfHead] using hs
    have hmulsr : s * rowSize ≤ rowsOf r rowSize * rowSize :=
      Nat.mul_le_mul_right _ hsr
    have hoff : (s * rowSize + r.firstRowOffset) % u32 =
        r.firstRowOffset + s * rowSize := by
      rw [Nat.add_comm, Nat.mod_eq_of_lt (by omega)]
    have hlim : (r.rowOffset + u32 - rowSize) % u32 = r.rowOffset - rowSize := by
      rw [show r.rowOffset + u32 - rowSize = (r.rowOffset - rowSize) + u32 by omega,
        Nat.add_mod_right, Nat.mod_eq_of_lt (by omega)]
    have hfuel : rowsOf r rowSize - s < u32 := by
      have := rowsOf_lt_u32 r rowSize hw3
      omega
    simp only [makeRowsRanges]
    rw [hoff, hlim]
    obtain ⟨s1, hg, hdrop, hs1⟩ := makeRowsGo_spec r rowSize maxRows hrs hw1 hw2 hw3
      u32 s fill acc hsr hfill hfuel
    rw [hg]
    by_cases hearly : maxRows - fill ≤ (liveRowsFrom r rowSize s).length
    · rw [decide_eq_true hearly]
      simp only [if_true]
      refine ⟨0, s1, ?_, ?_, by simp, by simpa [rowsOfHead] using hs1⟩
      · simp only [Nat.add_zero]
        have htake : (liveSuffix (r :: rest) rowSize s).take (maxRows - fill) =
            (liveRowsFrom r rowSize s).take (maxRows - fill) := by
          rw [liveSuffix_cons, List.take_append_eq_append_take,
            Nat.sub_eq_zero_of_le hearly]
          simp
        rw [htake]
      · simp only [List.drop_zero]
        simp only [liveSuffix_cons]
        rw [hdrop, List.drop_append_eq_append_drop,
          Nat.sub_eq_zero_of_le hearly]
        simp
    · rw [decide_eq_false hearly]
      simp only [Bool.false_eq_true, if_false]
      have hlen : (liveRowsFrom r rowSize s).length < maxRows - fill := by omega
      have hmin : min (maxRows - fill) (liveRowsFrom r rowSize s).length =
          (liveRowsFrom r rowSize s).length := by omega
      have htake1 : (liveRowsFrom r rowSize s).take (maxRows - fill) =
          liveRowsFrom r rowSize s :=
        List.take_of_length_le (by omega)
      have hfill1 : fill + (liveRowsFrom r rowSize s).length < maxRows := by omega
      rw [hmin, htake1]
      obtain ⟨i, s', hres, hdrop2, hi, hs'⟩ := ih (startRange + 1) 0
        (fill + (liveRowsFrom r rowSize s).length)
        (acc ++ liveRowsFrom r rowSize s)
        (fun x hx => hwf x (List.mem_cons_of_mem r hx)) (Nat.zero_le _) hfill1
      have hkk : maxRows - (fill + (liveRowsFrom r rowSize s).length) =
          (maxRows - fill) - (liveRowsFrom r rowSize s).length := by omega
      refine ⟨i + 1, s', ?_, ?_, by simp; omega, ?_⟩
      · rw [hres]
        have htake2 : (liveSuffix (r :: rest) rowSize s).take (maxRows - fill) =
            liveRowsFrom r rowSize s ++
              (liveSuffix rest rowSize 0).take
                ((maxRows - fill) - (liveRowsFrom r rowSize s).length) := by
          rw [liveSuffix_cons, List.take_append_eq_append_take, htake1,
            liveSuffix_zero]
        rw [htake2, hkk]
        simp only [List.append_assoc]
        have harr : startRange + 1 + i = startRange + (i + 1) := by omega
        rw [harr]
      · rw [List.drop_succ_cons, hdrop2, hkk]
        simp only [liveSuffix_cons]
        rw [List.drop_append_eq_append_drop,
          List.drop_of_length_le (le_of_lt hlen), liveSuffix_zero]
        simp
      · simpa [List.drop_succ_cons] using hs'

/-- A call to `makeResultRows` hands out the next `maxRows` live addresses
in order and moves the cursor exactly past them. -/
theorem makeResultRows_take_drop (ranges : List AllocationRange)
    (rowSize maxRows : Nat) (c : ResultCursor) (hrs : 0 < rowSize)
    (hmx : 0 < maxRows) (hwf : ∀ r ∈ ranges, RangeWf r rowSize)
    (hc : c.startRow ≤ rowsOfHead (ranges.drop c.startRange) rowSize) :
    (makeResultRows ranges rowSize maxRows c).1 =
      (liveFromCursor ranges rowSize c).take maxRows ∧
    liveFromCursor ranges rowSize (makeResultRows ranges rowSize maxRows c).2 =
      (liveFromCursor ranges rowSize c).drop maxRows ∧
    (makeResultRows ranges rowSize maxRows c).2.startRow ≤
      rowsOfHead (ranges.drop
        (makeResultRows ranges rowSize maxRows c).2.startRange) rowSize := by
  obtain ⟨i, s', hres, hdrop, hi, hs'⟩ := makeRowsRanges_spec rowSize maxRows hrs
    (ranges.drop c.startRange) c.startRange c.startRow 0 []
    (fun r hr => hwf r (List.mem_of_mem_drop hr)) hc hmx
  unfold makeResultRows liveFromCursor
  rw [hres]
  have hdd : ranges.drop (c.startRange + i) =
      (ranges.drop c.startRange).drop i := by
    rw [List.drop_drop, Nat.add_comm]
  refine ⟨by simp, ?_, ?_⟩
  · show liveSuffix (ranges.drop (c.startRange + i)) rowSize s' = _
    rw [hdd, hdrop]
    simp
  · show s' ≤ rowsOfHead (ranges.drop (c.startRange + i)) rowSize
    rw [hdd]
    exact hs'

set_option maxRecDepth 8000 in
/-- C6: with a persisted cursor, each `makeResultRows` call returns the
next at most `maxRows` live (non-bitmap-deleted) row addresses in range
order then ascending offset — the `take` of the canonical live list — and
advances the cursor so that exactly the remaining live rows (`drop`) are
handed out later: every live row exactly once, none revisited.  In the
scenario of one 10-row range of 16-byte rows with rows `{0, 3, 7}` deleted
and a batch cap of 5, the first call returns the 5 ascending addresses, the
second the remaining 2, and every later call returns none. -/
theorem c6_drain_cursor (ranges : List AllocationRange) (rowSize maxRows : Nat)
    (c : ResultCursor) (hrs : 0 < rowSize) (hmx : 0 < maxRows)
    (hwf : ∀ r ∈ ranges, RangeWf r rowSize)
    (hc : c.startRow ≤ rowsOfHead (ranges.drop c.startRange) rowSize) :
    ((makeResultRows ranges rowSize maxRows c).1 =
        (liveFromCursor ranges rowSize c).take maxRows ∧
      liveFromCursor ranges rowSize (makeResultRows ranges rowSize maxRows c).2 =
        (liveFromCursor ranges rowSize c).drop maxRows ∧
      (makeResultRows ranges rowSize maxRows c).1.length ≤ maxRows) ∧
    (makeResultRows [scenarioRange] 16 5 ⟨0, 0⟩ =
        ([1032, 1048, 1080, 1096, 1112], ⟨0, 7⟩) ∧
      makeResultRows [scenarioRange] 16 5 ⟨0, 7⟩ = ([1144, 1160], ⟨1, 0⟩) ∧
      makeResultRows [scenarioRange] 16 5 ⟨1, 0⟩ = ([], ⟨1, 0⟩)) := by
  obtain ⟨h1, h2, h3⟩ :=
    makeResultRows_take_drop ranges rowSize maxRows c hrs hmx hwf hc
  refine ⟨⟨h1, h2, ?_⟩, by decide, by decide, by decide⟩
  rw [h1]
  exact List.length_take_le maxRows (liveFromCursor ranges rowSize c)

set_option maxRecDepth 8000 in
/-- Witness for C6 at the spec's scenario: the first call from cursor
`(0, 0)` returns the `take 5` of the live list and leaves exactly its
`drop 5` for later calls. -/
theorem c6_drain_cursor_witness :
    (makeResultRows [scenarioRange] 16 5 ⟨0, 0⟩).1 =
      (liveFromCursor [scenarioRange] 16 ⟨0, 0⟩).take 5 ∧
    liveFromCursor [scenarioRange] 16
        (makeResultRows [scenarioRange] 16 5 ⟨0, 0⟩).2 =
      (liveFromCursor [scenarioRange] 16 ⟨0, 0⟩).drop 5 :=
  ⟨(c6_drain_cursor [scenarioRange] 16 5 ⟨0, 0⟩ (by decide) (by decide)
      (by decide) (by decide)).1.1,
   (c6_drain_cursor [scenarioRange] 16 5 ⟨0, 0⟩ (by decide) (by decide)
      (by decide) (by decide)).1.2.1⟩

/-- Every address the inner row loop emits beyond its starting accumulator
lies between `base + offset` and `base + limit`. -/
theorem makeRowsGo_bounds (D : Nat → Bool) (B limit rowSize maxRows : Nat)
    (hwrap : limit + rowSize < u32) :
    ∀ (fuel offset s fill : Nat) (acc : List Nat),
      ∀ x ∈ (makeRowsGo D B limit rowSize maxRows fuel offset s fill acc).1,
        x ∈ acc ∨ (B + offset ≤ x ∧ x ≤ B + limit) := by
  intro fuel
  induction fuel with
  | zero =>
    intro offset s fill acc x hx
    exact Or.inl (by simpa [makeRowsGo] using hx)
  | succ f ih =>
    intro offset s fill acc x hx
    simp only [makeRowsGo] at hx
    by_cases ho : offset ≤ limit
    · rw [if_pos ho] at hx
      have hmod : (offset + rowSize) % u32 = offset + rowSize :=
        Nat.mod_eq_of_lt (by omega)
      by_cases hd : D s = true
      · rw [if_pos hd, hmod] at hx
        rcases ih _ _ _ _ x hx with h | h
        · exact Or.inl h
        · right; omega
      · rw [if_neg hd] at hx
        by_cases hk : maxRows ≤ fill + 1
        · rw [if_pos hk] at hx
          rcases List.mem_append.1 hx with h | h
          · exact Or.inl h
          · right
            simp only [List.mem_singleton] at h
            omega
        · rw [if_neg hk, hmod] at hx
          rcases ih _ _ _ _ x hx with h | h
          · rcases List.mem_append.1 h with h2 | h2
            · exact Or.inl h2
            · right
              simp only [List.mem_singleton] at h2
              omega
          · right; omega
    · rw [if_neg ho] at hx
      exact Or.inl hx

/-- Every address the outer range loop emits beyond its accumulator lies
inside one of the scanned ranges, provided each range holds at least one
full row (so the `uint32` scan limit `rowOffset - rowSize` cannot wrap). -/
theorem makeRowsRanges_bounds (rowSize maxRows : Nat) :
    ∀ (rs : List AllocationRange) (startRange s fill : Nat) (acc : List Nat),
      (∀ r ∈ rs, r.firstRowOffset + rowSize ≤ r.rowOffset ∧ r.rowOffset < u32) →
      (∀ r0 rest0, rs = r0 :: rest0 →
        s * rowSize + r0.firstRowOffset < u32) →
      ∀ x ∈ (makeRowsRanges rowSize maxRows rs startRange s fill acc).1,
        x ∈ acc ∨ ∃ r ∈ rs, r.base + r.firstRowOffset ≤ x ∧
          x ≤ r.base + (r.rowOffset - rowSize) := by
  intro rs
  induction rs with
  | nil =>
    intro startRange s fill acc hwf hnw x hx
    exact Or.inl (by simpa [makeRowsRanges] using hx)
  | cons r rest ih =>
    intro startRange s fill acc hwf hnw x hx
    obtain ⟨hw1, hw3⟩ := hwf r (List.mem_cons_self r rest)
    have hw2 : rowSize ≤ r.rowOffset := by omega
    have hoff : (s * rowSize + r.firstRowOffset) % u32 =
        s * rowSize + r.firstRowOffset := Nat.mod_eq_of_lt (hnw r rest rfl)
    have hlim : (r.rowOffset + u32 - rowSize) % u32 = r.rowOffset - rowSize := by
      rw [show r.rowOffset + u32 - rowSize = (r.rowOffset - rowSize) + u32 by omega,
        Nat.add_mod_right, Nat.mod_eq_of_lt (by omega)]
    simp only [makeRowsRanges] at hx
    rw [hoff, hlim] at hx
    have hwrap : (r.rowOffset - rowSize) + rowSize < u32 := by omega
    have hbnds := makeRowsGo_bounds r.deleted r.base (r.rowOffset - rowSize)
      rowSize maxRows hwrap u32 (s * rowSize + r.firstRowOffset) s fill acc
    by_cases he : (makeRowsGo r.deleted r.base (r.rowOffset - rowSize) rowSize
        maxRows u32 (s * rowSize + r.firstRowOffset) s fill acc).2.2.2 = true
    · rw [if_pos he] at hx
      rcases hbnds x hx with h | h
      · exact Or.inl h
      · right
        exact ⟨r, List.mem_cons_self r rest, by omega, by omega⟩
    · rw [if_neg he] at hx
      have hnw2 : ∀ r0 rest0, rest = r0 :: rest0 →
          0 * rowSize + r0.firstRowOffset < u32 := by
        intro r0 rest0 hcons
        have hr0 : r0 ∈ rest := by rw [hcons]; exact List.mem_cons_self r0 rest0
        obtain ⟨h1, h3⟩ := hwf r0 (List.mem_cons_of_mem r hr0)
        omega
      rcases ih (startRange + 1) 0 _ _
        (fun y hy => hwf y (List.mem_cons_of_mem r hy)) hnw2 x hx with h | h
      · rcases hbnds x h with h2 | h2
        · exact Or.inl h2
        · right
          exact ⟨r, List.mem_cons_self r rest, by omega, by omega⟩
      · right
        obtain ⟨y, hy, hb⟩ := h
        exact ⟨y, List.mem_cons_of_mem r hy, hb⟩

/-- C10: `makeResultRows` computes the per-range scan limit as the unsigned
32-bit difference `rowOffset - rowSize` (so the embedding models it modulo
`2^32`); under the precondition that every range holds at least one full
row (`firstRowOffset + rowSize ≤ rowOffset`, offsets below `2^32`) and a
well-placed cursor, every address it writes lies inside its range, between
`base + firstRowOffset` and `base + rowOffset - rowSize` inclusive.  With
`rowOffset < rowSize` the subtraction would wrap and no bound is claimed. -/
theorem c10_address_bounds (ranges : List AllocationRange)
    (rowSize maxRows : Nat) (c : ResultCursor)
    (hwf : ∀ r ∈ ranges, r.firstRowOffset + rowSize ≤ r.rowOffset ∧
      r.rowOffset < u32)
    (hc : c.startRow ≤ rowsOfHead (ranges.drop c.startRange) rowSize) :
    ∀ x ∈ (makeResultRows ranges rowSize maxRows c).1,
      ∃ r ∈ ranges, r.base + r.firstRowOffset ≤ x ∧
        x ≤ r.base + (r.rowOffset - rowSize) := by
  intro x hx
  have hx2 : x ∈ (makeRowsRanges rowSize maxRows (ranges.drop c.startRange)
      c.startRange c.startRow 0 []).1 := hx
  have hnw : ∀ r0 rest0, ranges.drop c.startRange = r0 :: rest0 →
      c.startRow * rowSize + r0.firstRowOffset < u32 := by
    intro r0 rest0 hcons
    have hr0 : r0 ∈ ranges :=
      List.mem_of_mem_drop (by rw [hcons]; exact List.mem_cons_self r0 rest0)
    obtain ⟨h1, h3⟩ := hwf r0 hr0
    have hcr : c.startRow ≤ rowsOf r0 rowSize := by
      rw [hcons] at hc
      simpa [rowsOfHead] using hc
    have hm1 : c.startRow * rowSize ≤ rowsOf r0 rowSize * rowSize :=
      Nat.mul_le_mul_right _ hcr
    have hm2 : rowsOf r0 rowSize * rowSize ≤ r0.rowOffset - r0.firstRowOffset :=
      Nat.div_mul_le_self _ _
    omega
  rcases makeRowsRanges_bounds rowSize maxRows (ranges.drop c.startRange)
    c.startRange c.startRow 0 []
    (fun r hr => hwf r (List.mem_of_mem_drop hr)) hnw x hx2 with h | h
  · exact absurd h (List.not_mem_nil x)
  · obtain ⟨r, hr, hb⟩ := h
    exact ⟨r, List.mem_of_mem_drop hr, hb⟩

set_option maxRecDepth 8000 in
/-- Witness for C10 at the drain scenario: the first returned address,
`1032`, lies inside the single range's row area. -/
theorem c10_address_bounds_witness :
    scenarioRange.base + scenarioRange.firstRowOffset ≤ 1032 ∧
    1032 ≤ scenarioRange.base + (scenarioRange.rowOffset - 16) := by
  obtain ⟨r, hr, h1, h2⟩ := c10_address_bounds [scenarioRange] 16 5 ⟨0, 0⟩
    (by decide) (by decide) 1032 (by decide)
  have hrs : r = scenarioRange := List.mem_singleton.1 hr
  subst hrs
  exact ⟨h1, h2⟩

end Wave
